import Mathlib

/-!
Verification of the `OrderedHashMap` container from `src/map.rs`.

The container couples a hash index (`base : HashMap<K, V, S>`) with an
insertion-order sequence (`order_list : Vec<K>`).  The source provides the
constructors `new`, `with_capacity`, `with_hasher`,
`with_capacity_and_hasher`, the `capacity` accessor, a derived `Clone`
and a `Default` implementation.  Mutating operations (`insert`, `remove`)
are not present in the source; where a property needs them they are
modelled from the specification and are marked as such.
-/

namespace Ordered

/-- Model of `std::collections::hash_map::RandomState`, the default hash
strategy.  Its randomly chosen internal keys play no role in any property
verified here, so it is modelled as a token structure. -/
structure RandomState where
  token : Unit

instance : Inhabited RandomState := ⟨⟨()⟩⟩

/-- Model of `Vec<K>`: the stored elements together with the reserved
storage capacity of the backing buffer. -/
structure VecModel (K : Type) where
  data : List K
  cap : Nat

/-- Model of `Vec::new()`: no elements, no reserved storage. -/
def VecModel.new (K : Type) : VecModel K :=
  ⟨[], 0⟩

/-- Model of `Vec::with_capacity(n)`: empty, with storage reserved for
`n` elements. -/
def VecModel.with_capacity (K : Type) (n : Nat) : VecModel K :=
  ⟨[], n⟩

/-- Model of `Vec::capacity()`: the reserved storage. -/
def VecModel.capacity {K : Type} (v : VecModel K) : Nat :=
  v.cap

/-- Modelled from the spec: insertion "may trigger reallocation of either
internal structure".  When the buffer is full the reserved storage grows
geometrically (never below one extra slot); otherwise it is unchanged. -/
def grown_cap (cap len : Nat) : Nat :=
  if len < cap then cap else max (2 * cap) (len + 1)

/-- Modelled from the spec: appending one element at the end of the order
sequence, reallocating when the buffer is full. -/
def VecModel.push {K : Type} (v : VecModel K) (k : K) : VecModel K :=
  ⟨v.data ++ [k], grown_cap v.cap v.data.length⟩

/-- Model of `HashMap<K, V, S>`: the hash builder, the entries as an
association list, and the reserved capacity. -/
structure HashMapModel (K V S : Type) where
  hash_builder : S
  entries : List (K × V)
  cap : Nat

/-- Model of `HashMap::with_hasher(s)`: empty, capacity zero. -/
def HashMapModel.with_hasher {K V S : Type} (s : S) : HashMapModel K V S :=
  ⟨s, [], 0⟩

/-- Model of `HashMap::with_capacity_and_hasher(n, s)`: empty, with
storage reserved for at least `n` entries. -/
def HashMapModel.with_capacity_and_hasher {K V S : Type} (n : Nat) (s : S) :
    HashMapModel K V S :=
  ⟨s, [], n⟩

/-- The container of `src/map.rs`: a hash index `base` plus the
insertion-order sequence `order_list`. -/
structure OrderedHashMap (K V S : Type) where
  base : HashMapModel K V S
  order_list : VecModel K

namespace OrderedHashMap

variable {K V S : Type}

/-- `OrderedHashMap::with_hasher(hash_builder)`: empty map using the given
hash builder, order list freshly allocated with `Vec::new()`. -/
def with_hasher (s : S) : OrderedHashMap K V S :=
  ⟨HashMapModel.with_hasher s, VecModel.new K⟩

/-- `OrderedHashMap::with_capacity_and_hasher(capacity, hash_builder)`:
empty map reserving `capacity` slots in both internal structures. -/
def with_capacity_and_hasher (n : Nat) (s : S) : OrderedHashMap K V S :=
  ⟨HashMapModel.with_capacity_and_hasher n s, VecModel.with_capacity K n⟩

/-- The `Default` impl of the source: `with_hasher(Default::default())`. -/
def defaultMap [Inhabited S] : OrderedHashMap K V S :=
  with_hasher default

/-- `OrderedHashMap::new()`: defined in the source as
`Default::default()` at the default `RandomState` strategy. -/
def new : OrderedHashMap K V RandomState :=
  defaultMap

/-- `OrderedHashMap::with_capacity(capacity)`: defined in the source as
`with_capacity_and_hasher(capacity, Default::default())`. -/
def with_capacity (n : Nat) : OrderedHashMap K V RandomState :=
  with_capacity_and_hasher n default

/-- `OrderedHashMap::capacity()`: returns `self.order_list.capacity()`. -/
def capacity (m : OrderedHashMap K V S) : Nat :=
  VecModel.capacity m.order_list

/-- The state-passing reading of the shared-borrow method `capacity(&self)`:
the returned value paired with the receiver it hands back. -/
def capacity_call (m : OrderedHashMap K V S) : Nat × OrderedHashMap K V S :=
  (VecModel.capacity m.order_list, m)

/-- The keys of the index, in entry order. -/
def keys (m : OrderedHashMap K V S) : List K :=
  m.base.entries.map Prod.fst

/-- Number of live entries of the index. -/
def len (m : OrderedHashMap K V S) : Nat :=
  m.base.entries.length

/-- The derived `Clone`: field-wise duplication of both internal
structures. -/
def clone (m : OrderedHashMap K V S) : OrderedHashMap K V S :=
  ⟨⟨m.base.hash_builder, m.base.entries, m.base.cap⟩,
    ⟨m.order_list.data, m.order_list.cap⟩⟩

/-- Association-list lookup modelling index lookup. -/
def lookup_entry [DecidableEq K] (l : List (K × V)) (k : K) : Option V :=
  (l.find? (fun p => decide (p.1 = k))).map Prod.snd

/-- In-place value update for an existing key: the entry keeps its slot. -/
def update_entry [DecidableEq K] (l : List (K × V)) (k : K) (v : V) :
    List (K × V) :=
  l.map (fun p => if p.1 = k then (k, v) else p)

/-- Modelled from the spec: `insert(key, value)` (not present in the
source).  A new key is appended to the order sequence and added to the
index; an existing key has its value updated in place, order position
unchanged; the previous value, when any, is returned. -/
def insert [DecidableEq K] (m : OrderedHashMap K V S) (k : K) (v : V) :
    OrderedHashMap K V S × Option V :=
  match lookup_entry m.base.entries k with
  | some old =>
      (⟨⟨m.base.hash_builder, update_entry m.base.entries k v, m.base.cap⟩,
        m.order_list⟩, some old)
  | none =>
      (⟨⟨m.base.hash_builder, m.base.entries ++ [(k, v)],
          grown_cap m.base.cap m.base.entries.length⟩,
        m.order_list.push k⟩, none)

/-- Modelled from the spec: `remove(key)` (not present in the source).
A present key is deleted from the index and its entry is deleted from the
order sequence by a stable deletion; reserved storage is not shrunk.  An
absent key causes no mutation. -/
def remove [DecidableEq K] (m : OrderedHashMap K V S) (k : K) :
    OrderedHashMap K V S × Option V :=
  match lookup_entry m.base.entries k with
  | none => (m, none)
  | some v =>
      (⟨⟨m.base.hash_builder,
          m.base.entries.filter (fun p => decide (p.1 ≠ k)), m.base.cap⟩,
        ⟨m.order_list.data.filter (fun x => decide (x ≠ k)),
          m.order_list.cap⟩⟩, some v)

/-- Invariant 1 of the spec: the order sequence contains exactly the keys
present in the index, each exactly once. -/
def ordered_invariant (m : OrderedHashMap K V S) : Prop :=
  List.Perm m.order_list.data (keys m) ∧ m.order_list.data.Nodup

/-- Container states reachable through the public interface: the
constructors, closed under the (spec-modelled) mutating operations. -/
inductive Reachable [DecidableEq K] : OrderedHashMap K V S → Prop where
  | of_with_hasher (s : S) : Reachable (with_hasher s)
  | of_with_capacity_and_hasher (n : Nat) (s : S) :
      Reachable (with_capacity_and_hasher n s)
  | of_insert {m : OrderedHashMap K V S} (k : K) (v : V) :
      Reachable m → Reachable (insert m k v).1
  | of_remove {m : OrderedHashMap K V S} (k : K) :
      Reachable m → Reachable (remove m k).1

/-- Sample reachable state used to instantiate the capacity bound. -/
def w5state : OrderedHashMap Nat Nat RandomState :=
  (insert (with_capacity_and_hasher 4 ⟨()⟩) 1 2).1

/-- Sample freshly constructed state used to instantiate monotonicity. -/
def w7state : OrderedHashMap Nat Nat RandomState :=
  with_capacity 3

/-- Growing a full buffer never shrinks the reserved storage. -/
theorem grown_cap_le (cap len : Nat) : cap ≤ Ordered.grown_cap cap len := by
  unfold Ordered.grown_cap
  split
  · exact le_rfl
  · have h : cap ≤ 2 * cap := by omega
    exact h.trans (le_max_left _ _)

/-- Growing a buffer always leaves room for one more element. -/
theorem grown_cap_gt_len (cap len : Nat) : len + 1 ≤ Ordered.grown_cap cap len := by
  unfold Ordered.grown_cap
  split
  · omega
  · exact le_max_right _ _

/-- In-place value update keeps the key sequence of the index unchanged. -/
theorem keys_update_entry [DecidableEq K] (l : List (K × V)) (k : K) (v : V) :
    (update_entry l k v).map Prod.fst = l.map Prod.fst := by
  induction l with
  | nil => rfl
  | cons p t ih =>
      by_cases h : p.1 = k
      · simp only [update_entry, List.map_cons] at ih ⊢
        simp [h, ih]
      · simp only [update_entry, List.map_cons] at ih ⊢
        simp [h, ih]

/-- Filtering the index entries by key commutes with taking keys. -/
theorem keys_filter_ne [DecidableEq K] (l : List (K × V)) (k : K) :
    (l.filter (fun p => decide (p.1 ≠ k))).map Prod.fst
      = (l.map Prod.fst).filter (fun x => decide (x ≠ k)) := by
  induction l with
  | nil => rfl
  | cons p t ih =>
      simp only [decide_not] at ih ⊢
      by_cases h : p.1 = k
      · simp [List.filter_cons, h, ih]
      · simp [List.filter_cons, h, ih]

/-- A failed index lookup means the key is absent from the key sequence. -/
theorem not_mem_keys_of_lookup_none [DecidableEq K] {l : List (K × V)} {k : K}
    (h : lookup_entry l k = none) : k ∉ l.map Prod.fst := by
  intro hk
  rcases List.mem_map.mp hk with ⟨p, hp, hpk⟩
  have h2 : l.find? (fun p => decide (p.1 = k)) = none := by
    cases hf : l.find? (fun p => decide (p.1 = k)) with
    | none => rfl
    | some q => simp [lookup_entry, hf] at h
  rw [List.find?_eq_none] at h2
  have h3 := h2 p hp
  simp [hpk] at h3

/-- Every reachable state satisfies the bijection invariant, and its order
sequence never exceeds its reserved storage. -/
theorem reachable_invariant [DecidableEq K] {m : OrderedHashMap K V S}
    (h : Reachable m) :
    ordered_invariant m ∧ m.order_list.data.length ≤ m.order_list.cap := by
  induction h with
  | of_with_hasher s =>
      exact ⟨⟨List.Perm.refl _, List.nodup_nil⟩, Nat.zero_le _⟩
  | of_with_capacity_and_hasher n s =>
      exact ⟨⟨List.Perm.refl _, List.nodup_nil⟩, Nat.zero_le _⟩
  | @of_insert m k v hm ih =>
      obtain ⟨⟨hperm, hnodup⟩, hlen⟩ := ih
      cases hl : lookup_entry m.base.entries k with
      | some old =>
          simp only [ordered_invariant, insert, hl, keys]
          refine ⟨⟨?_, hnodup⟩, hlen⟩
          rw [keys_update_entry]
          exact hperm
      | none =>
          have hnk : k ∉ keys m := not_mem_keys_of_lookup_none hl
          simp only [ordered_invariant, insert, hl, keys, VecModel.push,
            List.map_append, List.map_cons, List.map_nil, List.length_append,
            List.length_singleton]
          refine ⟨⟨hperm.append_right [k], ?_⟩, grown_cap_gt_len _ _⟩
          rw [List.nodup_append]
          refine ⟨hnodup, List.nodup_singleton k, ?_⟩
          intro a ha hb
          rw [List.mem_singleton] at hb
          subst hb
          exact hnk (hperm.mem_iff.mp ha)
  | @of_remove m k hm ih =>
      obtain ⟨⟨hperm, hnodup⟩, hlen⟩ := ih
      cases hl : lookup_entry m.base.entries k with
      | none =>
          simp only [ordered_invariant, remove, hl]
          exact ⟨⟨hperm, hnodup⟩, hlen⟩
      | some v =>
          simp only [ordered_invariant, remove, hl, keys]
          refine ⟨⟨?_, hnodup.filter _⟩, (List.length_filter_le _ _).trans hlen⟩
          rw [keys_filter_ne]
          exact hperm.filter _

/-- C1: every constructor (`new`, `with_capacity n`, `with_hasher s`,
`with_capacity_and_hasher n s`) returns a container whose order sequence
contains exactly the keys present in the index, each exactly once; both
internal structures are empty, so the bijection invariant holds in the
constructed state. -/
theorem constructed_states_satisfy_bijection (K V S : Type) (n : Nat) (s : S) :
    (ordered_invariant (new : OrderedHashMap K V RandomState) ∧
      (new : OrderedHashMap K V RandomState).base.entries = [] ∧
      (new : OrderedHashMap K V RandomState).order_list.data = []) ∧
    (ordered_invariant (with_capacity n : OrderedHashMap K V RandomState) ∧
      (with_capacity n : OrderedHashMap K V RandomState).base.entries = [] ∧
      (with_capacity n : OrderedHashMap K V RandomState).order_list.data = []) ∧
    (ordered_invariant (with_hasher s : OrderedHashMap K V S) ∧
      (with_hasher s : OrderedHashMap K V S).base.entries = [] ∧
      (with_hasher s : OrderedHashMap K V S).order_list.data = []) ∧
    (ordered_invariant (with_capacity_and_hasher n s : OrderedHashMap K V S) ∧
      (with_capacity_and_hasher n s : OrderedHashMap K V S).base.entries = [] ∧
      (with_capacity_and_hasher n s : OrderedHashMap K V S).order_list.data = []) :=
  ⟨⟨⟨List.Perm.refl [], List.nodup_nil⟩, rfl, rfl⟩,
    ⟨⟨List.Perm.refl [], List.nodup_nil⟩, rfl, rfl⟩,
    ⟨⟨List.Perm.refl [], List.nodup_nil⟩, rfl, rfl⟩,
    ⟨⟨List.Perm.refl [], List.nodup_nil⟩, rfl, rfl⟩⟩

/-- C2: for every `n` and hash strategy `s`, the container returned by
`with_capacity n`, and likewise by `with_capacity_and_hasher n s`, is
empty and has `capacity ≥ n`, reserving storage for at least `n` entries
in both internal structures. -/
theorem with_capacity_reserves (K V S : Type) (n : Nat) (s : S) :
    ((with_capacity n : OrderedHashMap K V RandomState).len = 0 ∧
      n ≤ capacity (with_capacity n : OrderedHashMap K V RandomState) ∧
      n ≤ (with_capacity n : OrderedHashMap K V RandomState).base.cap) ∧
    ((with_capacity_and_hasher n s : OrderedHashMap K V S).len = 0 ∧
      n ≤ capacity (with_capacity_and_hasher n s : OrderedHashMap K V S) ∧
      n ≤ (with_capacity_and_hasher n s : OrderedHashMap K V S).base.cap) :=
  ⟨⟨rfl, le_rfl, le_rfl⟩, ⟨rfl, le_rfl, le_rfl⟩⟩

/-- C3: the container returned by `new` is empty and holds zero
pre-allocated capacity in both internal structures: `capacity` returns
`0` and no storage is reserved before the first insertion. -/
theorem new_zero_capacity (K V : Type) :
    (new : OrderedHashMap K V RandomState).len = 0 ∧
    capacity (new : OrderedHashMap K V RandomState) = 0 ∧
    (new : OrderedHashMap K V RandomState).base.cap = 0 ∧
    (new : OrderedHashMap K V RandomState).order_list.data = [] :=
  ⟨rfl, rfl, rfl, rfl⟩

/-- C4: `capacity` is derived solely from the order sequence's reserved
storage: it equals the `Vec` capacity of `order_list`, and two containers
sharing the same order sequence have the same `capacity` no matter what
the hash index has allocated. -/
theorem capacity_from_order_only (K V S : Type) (m : OrderedHashMap K V S)
    (b₁ b₂ : HashMapModel K V S) (o : VecModel K) :
    capacity m = m.order_list.cap ∧
    capacity (OrderedHashMap.mk b₁ o) = capacity (OrderedHashMap.mk b₂ o) :=
  ⟨rfl, rfl⟩

/-- C5: for every reachable container state, `capacity` is at least the
number of live entries, and the `capacity` call is read-only: it returns
the value together with the receiver unchanged. -/
theorem capacity_ge_live_and_readonly {K V S : Type} [DecidableEq K]
    {m : OrderedHashMap K V S} (h : Reachable m) :
    m.len ≤ capacity m ∧ capacity_call m = (capacity m, m) := by
  obtain ⟨⟨hperm, _⟩, hlen⟩ := reachable_invariant h
  refine ⟨?_, rfl⟩
  have h1 := hperm.length_eq
  have h2 : (keys m).length = m.base.entries.length := List.length_map _ _
  unfold len capacity VecModel.capacity
  omega

/-- C5 witness: the capacity bound instantiated at the concrete reachable
state obtained by one insertion into `with_capacity_and_hasher 4`. -/
theorem capacity_ge_live_and_readonly_witness :
    w5state.len ≤ capacity w5state ∧
    capacity_call w5state = (capacity w5state, w5state) :=
  capacity_ge_live_and_readonly
    (Reachable.of_insert 1 2 (Reachable.of_with_capacity_and_hasher 4 ⟨()⟩))

/-- C6: the derived `clone` is a deep copy: it agrees with the original
on the hash index and the order sequence (hence is equal to it as a
value), and running an operation on the clone gives exactly the result of
running it on the original, which itself stays what it was. -/
theorem clone_deep_copy {K V S : Type} [DecidableEq K]
    (m : OrderedHashMap K V S) (k : K) (v : V) :
    clone m = m ∧
    (clone m).base.entries = m.base.entries ∧
    (clone m).order_list.data = m.order_list.data ∧
    (clone m).base.hash_builder = m.base.hash_builder ∧
    insert (clone m) k v = insert m k v :=
  ⟨rfl, rfl, rfl, rfl, rfl⟩

/-- C7: insertion never decreases `capacity`, and on every reachable
state `capacity` is at least `len`. -/
theorem capacity_monotone_insert {K V S : Type} [DecidableEq K]
    {m : OrderedHashMap K V S} (k : K) (v : V) (h : Reachable m) :
    capacity m ≤ capacity (insert m k v).1 ∧ m.len ≤ capacity m := by
  obtain ⟨⟨hperm, _⟩, hlen⟩ := reachable_invariant h
  constructor
  · cases hl : lookup_entry m.base.entries k with
    | some old =>
        simp only [insert, hl]
        exact le_rfl
    | none =>
        simp only [insert, hl, capacity, VecModel.capacity, VecModel.push]
        exact grown_cap_le _ _
  · have h1 := hperm.length_eq
    have h2 : (keys m).length = m.base.entries.length := List.length_map _ _
    unfold len capacity VecModel.capacity
    omega

/-- C7 witness: capacity monotonicity and the capacity bound instantiated
at the concrete state `with_capacity 3`. -/
theorem capacity_monotone_insert_witness :
    capacity w7state ≤ capacity (insert w7state 5 6).1 ∧
    w7state.len ≤ capacity w7state :=
  capacity_monotone_insert 5 6 (Reachable.of_with_capacity_and_hasher 3 default)

/-- C8: the convenience constructors are definitional refinements of the
general ones: `new` is `Default::default()` at the `RandomState`
strategy, the `Default` impl is `with_hasher` of the default hasher, and
`with_capacity n` is `with_capacity_and_hasher n` of the default
hasher. -/
theorem convenience_constructors_refine (K V : Type) (n : Nat) :
    (new : OrderedHashMap K V RandomState) = defaultMap ∧
    (defaultMap : OrderedHashMap K V RandomState) = with_hasher default ∧
    (with_capacity n : OrderedHashMap K V RandomState)
      = with_capacity_and_hasher n default :=
  ⟨rfl, rfl, rfl⟩

/-- C9: for every hash strategy `s`, the container returned by
`with_hasher s` has `capacity` equal to `0`: its order sequence reserves
no storage. -/
theorem with_hasher_capacity_zero (K V S : Type) (s : S) :
    capacity (with_hasher s : OrderedHashMap K V S) = 0 ∧
    (with_hasher s : OrderedHashMap K V S).order_list.cap = 0 :=
  ⟨rfl, rfl⟩

/-- C10: every implemented public operation is total: on all inputs each
constructor evaluates to an explicit fully-built container with no
fallible branch, and `capacity` evaluates on every state to the order
sequence's reserved storage. -/
theorem public_ops_total (K V S : Type) [Inhabited S] (n : Nat) (s : S)
    (m : OrderedHashMap K V S) :
    (new : OrderedHashMap K V RandomState) = ⟨⟨default, [], 0⟩, ⟨[], 0⟩⟩ ∧
    (with_capacity n : OrderedHashMap K V RandomState)
      = ⟨⟨default, [], n⟩, ⟨[], n⟩⟩ ∧
    (with_hasher s : OrderedHashMap K V S) = ⟨⟨s, [], 0⟩, ⟨[], 0⟩⟩ ∧
    (with_capacity_and_hasher n s : OrderedHashMap K V S)
      = ⟨⟨s, [], n⟩, ⟨[], n⟩⟩ ∧
    capacity m = m.order_list.cap :=
  ⟨rfl, rfl, rfl, rfl, rfl⟩

end OrderedHashMap

end Ordered
